import Mathlib

/-!
Verification development for the dalas-eco-recipes retrieval system.

Shallow embedding of the algorithmic core of `src/RecipeIndexer.py` and
`src/Retriever.py`:
 - chunking of recipe records (`create_recipe_chunks`),
 - rating imputation at load time (`load_data`),
 - batched embedding (`embed_text_batch`),
 - sequential chunk-metadata production (`process`),
 - FAISS-style exact inner-product search with padding,
 - candidate-row construction, per-recipe deduplication, feature
   normalization, composite scoring and top-k truncation
   (`retrieve_recipes`).

Numbers are idealized as rationals; the NaN / infinity propagation of
pandas and numpy (which decides several of the properties below) is
modelled explicitly by the `PFloat` type.  The external embedding model
(sentence-transformers) and the FAISS row-normalization routine are
opaque collaborators and appear as function parameters.  `sort_values`
with the default `kind` is an unstable sort: pandas only guarantees a
permutation ordered by the key (missing values last), so the two sort
sites are modelled by function parameters constrained by the relation
`IsSortValuesDescBy`, quantifying over every conforming implementation.
-/

namespace EcoRecipes

/-- Idealized floating-point scalar as used by pandas and numpy columns:
a rational value, signed infinity, or NaN (which also encodes a missing
field in a metadata column). -/
inductive PFloat where
  | nan : PFloat
  | pinf : PFloat
  | ninf : PFloat
  | val : ℚ → PFloat
deriving DecidableEq, Repr

namespace PFloat

/-- IEEE-style addition on the idealized float type. -/
def add : PFloat → PFloat → PFloat
  | nan, _ => nan
  | _, nan => nan
  | pinf, ninf => nan
  | ninf, pinf => nan
  | pinf, _ => pinf
  | _, pinf => pinf
  | ninf, _ => ninf
  | _, ninf => ninf
  | val a, val b => val (a + b)

/-- IEEE-style negation. -/
def neg : PFloat → PFloat
  | nan => nan
  | pinf => ninf
  | ninf => pinf
  | val a => val (-a)

/-- IEEE-style subtraction. -/
def sub (a b : PFloat) : PFloat := add a (neg b)

/-- IEEE-style multiplication (infinity times zero is NaN). -/
def mul : PFloat → PFloat → PFloat
  | nan, _ => nan
  | _, nan => nan
  | pinf, pinf => pinf
  | pinf, ninf => ninf
  | ninf, pinf => ninf
  | ninf, ninf => pinf
  | pinf, val b => if b = 0 then nan else if 0 < b then pinf else ninf
  | val a, pinf => if a = 0 then nan else if 0 < a then pinf else ninf
  | ninf, val b => if b = 0 then nan else if 0 < b then ninf else pinf
  | val a, ninf => if a = 0 then nan else if 0 < a then ninf else pinf
  | val a, val b => val (a * b)

/-- IEEE-style division: finite / 0 gives a signed infinity (0/0 gives
NaN), finite / infinity gives 0, infinity / infinity gives NaN. -/
def div : PFloat → PFloat → PFloat
  | nan, _ => nan
  | _, nan => nan
  | pinf, pinf => nan
  | pinf, ninf => nan
  | ninf, pinf => nan
  | ninf, ninf => nan
  | pinf, val b => if 0 ≤ b then pinf else ninf
  | ninf, val b => if 0 ≤ b then ninf else pinf
  | val _, pinf => val 0
  | val _, ninf => val 0
  | val a, val b =>
    if b = 0 then (if a = 0 then nan else if 0 < a then pinf else ninf)
    else val (a / b)

instance : Add PFloat := ⟨add⟩
instance : Sub PFloat := ⟨sub⟩
instance : Mul PFloat := ⟨mul⟩
instance : Div PFloat := ⟨div⟩
instance : Neg PFloat := ⟨neg⟩

/-- Strict order on the non-NaN floats (`ninf < val q < pinf`); any
comparison involving NaN is false, as in IEEE arithmetic. -/
def lt : PFloat → PFloat → Bool
  | nan, _ => false
  | _, nan => false
  | ninf, ninf => false
  | ninf, _ => true
  | _, ninf => false
  | pinf, _ => false
  | val _, pinf => true
  | val a, val b => decide (a < b)

/-- Binary maximum skipping NaN, the fold step of `pandas.Series.max`
(`skipna=True`, the default). -/
def maxOp (a b : PFloat) : PFloat :=
  match a, b with
  | nan, x => x
  | x, nan => x
  | x, y => if lt x y then y else x

end PFloat

export PFloat (nan pinf ninf val)

/-- `pandas.Series.max` over a column: NaN entries are skipped; the max
of an empty or all-NaN column is NaN. -/
def seriesMax (l : List PFloat) : PFloat := l.foldl PFloat.maxOp nan

/-- Python `sep.join(parts)`. -/
def pyJoin (sep : String) : List String → String
  | [] => ""
  | [a] => a
  | a :: b :: rest => a ++ sep ++ pyJoin sep (b :: rest)

/-- The `for i in range(0, len(l), size)` slicing pattern
(`l[i:i+size]`), shared by the chunker and the batched embedder.  For
`size = 0` Python raises in `range`, producing no groups; that branch is
never exercised under the hypotheses of the theorems below. -/
def chunkList (size : ℕ) : List α → List (List α)
  | [] => []
  | a :: t =>
    if _h : size = 0 then []
    else (a :: t).take size :: chunkList size ((a :: t).drop size)
termination_by l => l.length
decreasing_by
  simp only [List.length_drop, List.length_cons]
  omega

/-- One ingredient entry of the recipe metadata table, as assembled by
`RecipeIndexer.create_metadata` (name, quantity, unit).  Absent quantity
or unit values are the empty (falsy) string. -/
structure Ingredient where
  name : String
  quantity : String
  unit : String
deriving DecidableEq, Repr

/-- One row of the recipe-level metadata table
(`RecipeIndexer.create_metadata`): title, rating, vegetarian flag, the
derived nutrition aggregates, and the ingredient list.  A numeric field
that was absent in the input is the NaN float, exactly as in the pandas
frame. -/
structure RecipeMeta where
  title : String
  rating : PFloat
  is_vege : Bool
  total_ecv : PFloat
  avg_kcal : PFloat
  avg_fat : PFloat
  avg_ecv : PFloat
  ingredients : List Ingredient
deriving DecidableEq, Repr

/-- `RecipeIndexer.create_recipe_chunks`: one `Title:` chunk when the
title is truthy (non-empty), then one `Ingredients:` chunk per slice of
`chunk_size` ingredient names whose comma-join is truthy. -/
def create_recipe_chunks (meta_row : RecipeMeta) (chunk_size : ℕ := 5) :
    List String :=
  let titleChunks :=
    if meta_row.title ≠ "" then ["Title: " ++ meta_row.title] else []
  let ingredients := meta_row.ingredients.map Ingredient.name
  let ingChunks := (chunkList chunk_size ingredients).filterMap (fun g =>
    let sub := pyJoin ", " g
    if sub ≠ "" then some ("Ingredients: " ++ sub) else none)
  titleChunks ++ ingChunks

/-- `pandas.Series.median` on the rating column: NaN entries are
skipped; the median of the sorted present values (mean of the two middle
values for an even count); NaN (here `none`) when no value is present. -/
def seriesMedian (ratings : List (Option ℚ)) : Option ℚ :=
  let present := ratings.filterMap id
  let sorted := List.insertionSort (· ≤ ·) present
  let n := sorted.length
  if n = 0 then none
  else if n % 2 = 1 then some (sorted.getD (n / 2) 0)
  else some ((sorted.getD (n / 2 - 1) 0 + sorted.getD (n / 2) 0) / 2)

/-- The rating-imputation step of `RecipeIndexer.load_data`:
`df["rating"] = df["rating"].fillna(df["rating"].median())`, acting on
the rating column (`none` is an absent rating / NaN; `fillna` with NaN
keeps NaN). -/
def load_data_fill_ratings (ratings : List (Option ℚ)) :
    List (Option ℚ) :=
  let median_rating := seriesMedian ratings
  ratings.map (fun r =>
    match r with
    | some v => some v
    | none => median_rating)

/-- `RecipeIndexer.embed_text_batch`: slice the texts into batches of
`batch_size`, encode each batch, `np.vstack` the per-batch results (a
`ValueError` when there is no batch to stack), then L2-normalize each
row in place.  The sentence-transformers model and the FAISS row
normalization are opaque collaborators passed as `encode` and
`normRow`; per the embedder contract each string is encoded
independently of its batch. -/
def embed_text_batch (encode : String → List ℚ)
    (normRow : List ℚ → List ℚ) (texts : List String)
    (batch_size : ℕ := 32) : Except String (List (List ℚ)) :=
  let embeddings := (chunkList batch_size texts).map (fun b => b.map encode)
  if embeddings.isEmpty then
    Except.error "ValueError: need at least one array to concatenate"
  else
    Except.ok (embeddings.flatten.map normRow)

/-- Modelled from the spec (section 4.2): the reference for the
batching-refinement claim, "a single unbounded call" - encode the whole
unpartitioned list in one call, then L2-normalize every row. -/
def embed_single (encode : String → List ℚ)
    (normRow : List ℚ → List ℚ) (texts : List String) : List (List ℚ) :=
  (texts.map encode).map normRow

/-- One entry of the chunk-level metadata list built by
`RecipeIndexer.process`. -/
structure ChunkMeta where
  global_chunk_id : ℕ
  recipe_id : ℕ
  chunk_id : ℕ
  text : String
deriving DecidableEq, Repr

/-- The `chunk_texts` accumulation of `RecipeIndexer.process`: all chunk
texts across the corpus, in production order. -/
def chunkTexts (metadata : List RecipeMeta) : List String :=
  (metadata.map (fun row => create_recipe_chunks row)).flatten

/-- The chunk-metadata accumulation of `RecipeIndexer.process`: for each
recipe in row order (`recipe_id` = row position), for each chunk in
chunker order, append an entry whose `global_chunk_id` is the length of
the accumulator at the time of the append. -/
def processChunks (metadata : List RecipeMeta) : List ChunkMeta :=
  metadata.enum.foldl (fun acc p =>
    acc ++ (create_recipe_chunks p.2).enum.map (fun q =>
      { global_chunk_id := acc.length + q.1
        recipe_id := p.1
        chunk_id := q.1
        text := q.2 })) []

/-- Closed form of the `processChunks` fold: the chunk-metadata blocks
of the recipes in `metadata`, when the first recipe gets recipe id
`rid` and the first produced chunk gets global chunk id `n`. -/
def blocksR (rid n : ℕ) : List RecipeMeta → List ChunkMeta
  | [] => []
  | row :: rest =>
    (create_recipe_chunks row).enum.map (fun q =>
        { global_chunk_id := n + q.1
          recipe_id := rid
          chunk_id := q.1
          text := q.2 })
      ++ blocksR (rid + 1) (n + (create_recipe_chunks row).length) rest

/-- One row of the candidate frame first built inside
`RecipeRetriever.retrieve_recipes` (columns `recipe_id`, `chunk_id`,
`faiss_score`). -/
structure ChunkRow where
  recipe_id : ℕ
  chunk_id : ℕ
  faiss_score : PFloat
deriving DecidableEq, Repr

/-- A candidate row after the joins of lines 134-138 of
`src/Retriever.py` added the recipe-level columns. -/
structure JoinedRow where
  recipe_id : ℕ
  chunk_id : ℕ
  faiss_score : PFloat
  rating : PFloat
  is_vegetarian : Bool
  avg_kcal : PFloat
  avg_fat : PFloat
  avg_ecv : PFloat
deriving DecidableEq, Repr

/-- Exact inner product of two stored rational vectors. -/
def ipScore (q v : List ℚ) : ℚ := (List.zipWith (· * ·) q v).sum

/-- Ranking relation of the FAISS flat inner-product index: higher
score first, ties broken by ascending row id. -/
def searchRank (a b : ℚ × ℕ) : Prop :=
  b.1 < a.1 ∨ (a.1 = b.1 ∧ a.2 ≤ b.2)

instance : DecidableRel searchRank := fun a b => by
  unfold searchRank; infer_instance

/-- `faiss.IndexFlatIP.search` over the stored vectors: exact inner
products, the `top_k` best in descending score order (ties by ascending
row id), padded to length `top_k` with label `-1` and the heap-neutral
distance (negative infinity) when fewer than `top_k` vectors are
stored. -/
def searchIndex (vectors : List (List ℚ)) (q_emb : List ℚ)
    (top_k : ℕ) : List (PFloat × Int) :=
  let scored := vectors.enum.map (fun p => (ipScore q_emb p.2, p.1))
  let ranked := (List.insertionSort searchRank scored).map
    (fun p => ((val p.1 : PFloat), (p.2 : Int)))
  ranked.take top_k ++ List.replicate (top_k - ranked.length) (ninf, -1)

/-- Python list subscription `l[i]`: negative indices count from the
end; anything out of range raises `IndexError`. -/
def pyGet (l : List α) (i : Int) : Except String α :=
  let j : Int := if i < 0 then i + l.length else i
  if 0 ≤ j then
    match l.get? j.toNat with
    | some a => Except.ok a
    | none => Except.error "IndexError: list index out of range"
  else Except.error "IndexError: list index out of range"

/-- The row-building loop of `retrieve_recipes` (lines 118-127): for
each returned `(score, cid)` pair look the chunk id up in
`chunk_metadata` and record `(recipe_id, chunk_id, faiss_score)`. -/
def buildRows (chunk_metadata : List ChunkMeta) :
    List (PFloat × Int) → Except String (List ChunkRow)
  | [] => Except.ok []
  | p :: rest => do
    let meta ← pyGet chunk_metadata p.2
    let rows ← buildRows chunk_metadata rest
    Except.ok ({ recipe_id := meta.recipe_id
                 chunk_id := meta.chunk_id
                 faiss_score := p.1 : ChunkRow } :: rows)

/-- The group keys of `df.groupby("recipe_id")`: the distinct recipe
ids, in ascending order (pandas sorts group keys by default). -/
def sortedUniqueIds (rows : List ChunkRow) : List ℕ :=
  List.insertionSort (· ≤ ·) (rows.map (fun r => r.recipe_id)).dedup

/-- `df.groupby("recipe_id").first().reset_index()` on the
score-sorted candidate frame: one row per distinct recipe id (ascending
ids), carrying the values of the first row of that group in frame
order.  (No column of this frame holds NaN, so pandas' first-non-null
per column is the first row.) -/
def dedupGroupFirst (rows : List ChunkRow) : List ChunkRow :=
  (sortedUniqueIds rows).filterMap (fun rid =>
    rows.find? (fun r => r.recipe_id == rid))

/-- The metadata joins of lines 134-138: `recipe_metadata.loc[rid, _]`
for the rating, vegetarian flag and nutrition aggregates (`KeyError`
when the label is absent from the table). -/
def joinMeta (recipe_metadata : List RecipeMeta) (r : ChunkRow) :
    Except String JoinedRow :=
  match recipe_metadata.get? r.recipe_id with
  | some m => Except.ok
      { recipe_id := r.recipe_id
        chunk_id := r.chunk_id
        faiss_score := r.faiss_score
        rating := m.rating
        is_vegetarian := m.is_vege
        avg_kcal := m.avg_kcal
        avg_fat := m.avg_fat
        avg_ecv := m.avg_ecv }
  | none => Except.error "KeyError"

/-- Line 140: `rating_norm = rating / rating.max()` over the candidate
pool. -/
def ratingNormAt (pool : List JoinedRow) (r : JoinedRow) : PFloat :=
  r.rating / seriesMax (pool.map (fun x => x.rating))

/-- Line 141: `kcal_norm = 1 - avg_kcal / avg_kcal.max()` over the
candidate pool. -/
def kcalNormAt (pool : List JoinedRow) (r : JoinedRow) : PFloat :=
  val 1 - r.avg_kcal / seriesMax (pool.map (fun x => x.avg_kcal))

/-- Line 142: `fat_norm = 1 - avg_fat / avg_fat.max()` over the
candidate pool. -/
def fatNormAt (pool : List JoinedRow) (r : JoinedRow) : PFloat :=
  val 1 - r.avg_fat / seriesMax (pool.map (fun x => x.avg_fat))

/-- Line 143: `eco_norm = 1 - avg_ecv / avg_ecv.max()` over the
candidate pool. -/
def ecoNormAt (pool : List JoinedRow) (r : JoinedRow) : PFloat :=
  val 1 - r.avg_ecv / seriesMax (pool.map (fun x => x.avg_ecv))

/-- Line 146: `eco_healthy_score = 0.4*eco_norm + 0.3*kcal_norm +
0.3*fat_norm`. -/
def ecoHealthyAt (pool : List JoinedRow) (r : JoinedRow) : PFloat :=
  val (4/10) * ecoNormAt pool r + val (3/10) * kcalNormAt pool r
    + val (3/10) * fatNormAt pool r

/-- The vegetarian flag as the number pandas uses in line 150. -/
def vegFloat (r : JoinedRow) : PFloat :=
  val (if r.is_vegetarian then 1 else 0)

/-- Lines 148-151: `final_score = faiss_score + rating_weight *
rating_norm + veg_boost_weight * is_vegetarian + eco_healthy_weight *
eco_healthy_score`, accumulated in exactly that order. -/
def finalScoreAt (pool : List JoinedRow) (rating_weight : ℚ)
    (veg_boost_weight : ℚ) (eco_healthy_weight : ℚ) (r : JoinedRow) :
    PFloat :=
  r.faiss_score + val rating_weight * ratingNormAt pool r
    + val veg_boost_weight * vegFloat r
    + val eco_healthy_weight * ecoHealthyAt pool r

/-- The presentation record assembled by
`RecipeRetriever.format_retrieved_context` for one recipe. -/
structure Presentation where
  title : String
  rating : PFloat
  is_vege : String
  ingredients_str : String
deriving DecidableEq, Repr

/-- The per-ingredient rendering of `format_retrieved_context`:
`"qty unit name"`, falling back to `"qty name"` and then `"name"` when
quantity or unit is falsy. -/
def formatIngredient (ing : Ingredient) : String :=
  if ing.quantity ≠ "" ∧ ing.unit ≠ "" then
    ing.quantity ++ " " ++ ing.unit ++ " " ++ ing.name
  else if ing.quantity ≠ "" then ing.quantity ++ " " ++ ing.name
  else ing.name

/-- `RecipeRetriever.format_retrieved_context`: a pure projection of
each recipe row to its presentation record, order preserved. -/
def format_retrieved_context (recipe_details : List RecipeMeta) :
    List Presentation :=
  recipe_details.map (fun recipe =>
    { title := recipe.title
      rating := recipe.rating
      is_vege := if recipe.is_vege then "Yes" else "No"
      ingredients_str :=
        pyJoin ", " (recipe.ingredients.map formatIngredient) })

/-- `RecipeRetriever.get_recipe_details`: positional `iloc` lookup of
the selected recipe rows (`IndexError` when out of bounds). -/
def get_recipe_details (recipe_metadata : List RecipeMeta)
    (recipe_ids : List ℕ) : Except String (List RecipeMeta) :=
  recipe_ids.mapM (fun rid =>
    match recipe_metadata.get? rid with
    | some m => Except.ok m
    | none => Except.error "IndexError: positional indexer out-of-bounds")

/-- The loaded artifact set the retriever works against: recipe
metadata table, chunk metadata list, and the vector rows of the FAISS
index. -/
structure Corpus where
  recipe_metadata : List RecipeMeta
  chunk_metadata : List ChunkMeta
  vectors : List (List ℚ)

/-- `RecipeRetriever.retrieve_recipes`, lines 115-158.  The query
embedding (`encode_query`) is the opaque model composed with L2
normalization, so the query enters as its embedded vector `q_emb`.  The
two `df.sort_values(..., ascending=False)` sites use pandas' default
unstable `quicksort`; they enter as the function parameters `sortChunk`
and `sortScored`, to be constrained to score-descending permutations
(`IsSortValuesDescBy`) by the theorems. -/
def retrieve_recipes
    (sortChunk : (ChunkRow → PFloat) → List ChunkRow → List ChunkRow)
    (sortScored : (JoinedRow × PFloat → PFloat) →
      List (JoinedRow × PFloat) → List (JoinedRow × PFloat))
    (corpus : Corpus) (q_emb : List ℚ) (top_k : ℕ := 10)
    (rating_weight : ℚ := 15/100) (veg_boost_weight : ℚ := 2/10)
    (eco_healthy_weight : ℚ := 5/10) :
    Except String (List Presentation) := do
  let results := searchIndex corpus.vectors q_emb 50
  let rows ← buildRows corpus.chunk_metadata results
  let sorted := sortChunk (fun r => r.faiss_score) rows
  let pool := dedupGroupFirst sorted
  let joined ← pool.mapM (joinMeta corpus.recipe_metadata)
  let scored := joined.map (fun r =>
    (r, finalScoreAt joined rating_weight veg_boost_weight
      eco_healthy_weight r))
  let sorted2 := sortScored (fun p => p.2) scored
  let results_df := sorted2.take top_k
  let details ← get_recipe_details corpus.recipe_metadata
    (results_df.map (fun p => p.1.recipe_id))
  pure (format_retrieved_context details)

/-- The non-NaN floats embedded in the linear order `⊥ < rationals <
⊤` used to state what `sort_values` guarantees.  (The value at `nan`
is irrelevant: every use is guarded by a NaN test.) -/
def toExt : PFloat → WithBot (WithTop ℚ)
  | nan => ⊥
  | ninf => ⊥
  | pinf => ((⊤ : WithTop ℚ) : WithBot (WithTop ℚ))
  | val q => ((q : WithTop ℚ) : WithBot (WithTop ℚ))

/-- `x` may be placed before `y` by a descending `sort_values` with the
default `na_position="last"`: either `y` is NaN, or neither is NaN and
`x` is at least `y`. -/
def precede (x y : PFloat) : Prop :=
  y = nan ∨ (x ≠ nan ∧ toExt y ≤ toExt x)

instance : DecidableRel precede := fun x y => by
  unfold precede; infer_instance

/-- What `df.sort_values(key, ascending=False)` (default unstable
`quicksort`, `na_position="last"`) guarantees about its output frame:
a permutation of the input rows that is pairwise ordered by `precede`
on the key column.  The order of key-equal rows is implementation
defined. -/
def IsSortValuesDescBy (key : α → PFloat) (orig out : List α) : Prop :=
  out.Perm orig ∧ out.Pairwise (fun a b => precede (key a) (key b))

instance (key : α → PFloat) [DecidableEq α] (orig out : List α) :
    Decidable (IsSortValuesDescBy key orig out) := by
  unfold IsSortValuesDescBy; exact instDecidableAnd

/-- One conforming `sort_values` implementation (used to instantiate
the sort parameters in witnesses): insertion sort by the key. -/
def sortByKeyDesc (key : α → PFloat) (l : List α) : List α :=
  List.insertionSort (fun a b => precede (key a) (key b)) l

instance {ε α : Type} [DecidableEq ε] [DecidableEq α] :
    DecidableEq (Except ε α) := fun x y =>
  match x, y with
  | Except.ok a, Except.ok b =>
    if h : a = b then isTrue (by rw [h])
    else isFalse (fun hc => h (Except.ok.inj hc))
  | Except.error a, Except.error b =>
    if h : a = b then isTrue (by rw [h])
    else isFalse (fun hc => h (Except.error.inj hc))
  | Except.ok _, Except.error _ => isFalse (fun hc => Except.noConfusion hc)
  | Except.error _, Except.ok _ => isFalse (fun hc => Except.noConfusion hc)

/-- A two-candidate pool whose ratings are all zero and whose nutrition
aggregates are missing for every member: the failing input for the
neutral-default normalization requirement. -/
def c1Pool : List JoinedRow :=
  [⟨0, 0, val 0, val 0, false, nan, nan, nan⟩,
   ⟨1, 0, val 0, val 0, false, nan, nan, nan⟩]

/-- The corresponding loaded artifact set (two recipes, one title chunk
each, zero-dimensional embeddings). -/
def c1Corpus : Corpus :=
  { recipe_metadata :=
      [⟨"A", val 0, false, nan, nan, nan, nan, []⟩,
       ⟨"B", val 0, false, nan, nan, nan, nan, []⟩]
    chunk_metadata := [⟨0, 0, 0, "Title: A"⟩, ⟨1, 1, 0, "Title: B"⟩]
    vectors := [[], []] }

/-- A recipe record with a title and seven truthy ingredient names
(witness input for the chunk-count formula). -/
def w5Rec : RecipeMeta :=
  ⟨"Soup", val 4, true, nan, nan, nan, nan,
   [⟨"a", "1", "g"⟩, ⟨"b", "", ""⟩, ⟨"c", "2", ""⟩, ⟨"d", "", ""⟩,
    ⟨"e", "", ""⟩, ⟨"f", "", ""⟩, ⟨"g", "", ""⟩]⟩

/-- Two post-dedup candidates identical in every score component and
differing only in `recipe_id` (0 versus 1): a final-score tie. -/
def c4RowA : JoinedRow := ⟨0, 0, val 1, val 1, false, val 1, val 1, val 1⟩

/-- See `c4RowA`. -/
def c4RowB : JoinedRow := ⟨1, 0, val 1, val 1, false, val 1, val 1, val 1⟩

/-- A higher-rated candidate (rating 4) otherwise identical to `c9B`:
witness input for rating-weight monotonicity. -/
def c9A : JoinedRow := ⟨0, 0, val 1, val 4, false, val 1, val 1, val 1⟩

/-- A lower-rated candidate (rating 2); see `c9A`. -/
def c9B : JoinedRow := ⟨1, 0, val 1, val 2, false, val 1, val 1, val 1⟩

/-- A loaded artifact set with exactly one stored chunk (fewer than the
fixed candidate-pool size 50). -/
def c10Corpus : Corpus :=
  { recipe_metadata := [⟨"X", val 0, false, nan, nan, nan, nan, []⟩]
    chunk_metadata := [⟨0, 0, 0, "Title: X"⟩]
    vectors := [[]] }

/-- First recipe of the C8 witness corpus: a title and two
ingredients (one title chunk plus one ingredient chunk). -/
def w8R0 : RecipeMeta :=
  ⟨"Soup", val 4, true, nan, nan, nan, nan,
   [⟨"carrot", "1", ""⟩, ⟨"salt", "", ""⟩]⟩

/-- Second recipe of the C8 witness corpus: title only. -/
def w8R1 : RecipeMeta := ⟨"Stew", val 3, false, nan, nan, nan, nan, []⟩

theorem chunkList_cons (size : ℕ) (a : α) (l : List α) (hs : size ≠ 0) :
    chunkList size (a :: l) =
      (a :: l).take size :: chunkList size ((a :: l).drop size) := by
  rw [chunkList]
  simp [hs]

/-- Concatenating the groups gives back the original list. -/
theorem chunkList_join (size : ℕ) (hs : size ≠ 0) (l : List α) :
    (chunkList size l).flatten = l := by
  induction l using chunkList.induct size with
  | case1 => simp [chunkList]
  | case2 a t h => exact absurd h hs
  | case3 a t h ih =>
    rw [chunkList_cons _ _ _ hs]
    simp only [List.flatten_cons, ih]
    exact List.take_append_drop _ _

/-- Number of groups: the ceiling of `length / size`. -/
theorem chunkList_length (size : ℕ) (hs : size ≠ 0) (l : List α) :
    (chunkList size l).length = (l.length + size - 1) / size := by
  induction l using chunkList.induct size with
  | case1 =>
    simp only [chunkList, List.length_nil]
    rw [Nat.div_eq_of_lt (by omega)]
  | case2 a t h => exact absurd h hs
  | case3 a t h ih =>
    rw [chunkList_cons _ _ _ hs]
    simp only [List.length_cons, ih, List.length_drop]
    rcases Nat.lt_or_ge (t.length + 1) size with hc | hc
    · have hz : t.length + 1 - size = 0 := by omega
      rw [hz]
      rw [Nat.div_eq_of_lt (by omega)]
      have h2 : (t.length + 1 + size - 1) / size = 1 := by
        have he : t.length + 1 + size - 1 = t.length + size := by omega
        rw [he]
        exact Nat.div_eq_of_lt_le (by omega) (by omega)
      omega
    · have h3 : t.length + 1 - size + size - 1 = t.length + 1 - 1 := by
        omega
      have h4 : t.length + 1 + size - 1 = (t.length + 1 - 1) + size := by
        omega
      rw [h3, h4, Nat.add_div_right _ (Nat.pos_of_ne_zero hs)]

/-- Each produced group is nonempty (for a positive group size). -/
theorem chunkList_ne_nil (size : ℕ) (hs : size ≠ 0) (l : List α) :
    ∀ g ∈ chunkList size l, g ≠ [] := by
  induction l using chunkList.induct size with
  | case1 => simp [chunkList]
  | case2 a t h => exact absurd h hs
  | case3 a t h ih =>
    rw [chunkList_cons _ _ _ hs]
    simp only [List.mem_cons]
    rintro g (rfl | hg)
    · intro hemp
      have := congrArg List.length hemp
      simp only [List.length_take, List.length_nil, List.length_cons]
        at this
      omega
    · exact ih g hg

/-- Every member of a group is a member of the original list. -/
theorem chunkList_subset (size : ℕ) (l : List α) :
    ∀ g ∈ chunkList size l, ∀ x ∈ g, x ∈ l := by
  induction l using chunkList.induct size with
  | case1 => simp [chunkList]
  | case2 a t h => simp [chunkList, h]
  | case3 a t h ih =>
    rw [chunkList_cons _ _ _ h]
    intro g hg x hx
    rcases List.mem_cons.mp hg with rfl | hg'
    · exact List.mem_of_mem_take hx
    · exact List.mem_of_mem_drop (ih g hg' x hx)

theorem precede_total (x y : PFloat) : precede x y ∨ precede y x := by
  by_cases hy : y = nan
  · exact Or.inl (Or.inl hy)
  · by_cases hx : x = nan
    · exact Or.inr (Or.inl hx)
    · rcases le_total (toExt x) (toExt y) with h | h
      · exact Or.inr (Or.inr ⟨hy, h⟩)
      · exact Or.inl (Or.inr ⟨hx, h⟩)

theorem precede_trans {x y z : PFloat} (hxy : precede x y)
    (hyz : precede y z) : precede x z := by
  rcases hyz with hz | ⟨hy, hzy⟩
  · exact Or.inl hz
  · rcases hxy with hy' | ⟨hx, hyx⟩
    · exact absurd hy' hy
    · exact Or.inr ⟨hx, le_trans hzy hyx⟩

theorem sortByKeyDesc_valid (key : α → PFloat) (l : List α) :
    IsSortValuesDescBy key l (sortByKeyDesc key l) := by
  have htot : IsTotal α (fun a b => precede (key a) (key b)) :=
    ⟨fun a b => precede_total (key a) (key b)⟩
  have htr : IsTrans α (fun a b => precede (key a) (key b)) :=
    ⟨fun _ _ _ h h' => precede_trans h h'⟩
  exact ⟨List.perm_insertionSort _ l,
    @List.sorted_insertionSort α _ _ htot htr l⟩

theorem val_add (a b : ℚ) : val a + val b = val (a + b) := rfl

theorem val_mul (a b : ℚ) : val a * val b = val (a * b) := rfl

theorem val_sub (a b : ℚ) : val a - val b = val (a - b) := by
  show PFloat.add (val a) (PFloat.neg (val b)) = val (a - b)
  simp [PFloat.add, PFloat.neg, sub_eq_add_neg]

theorem val_div (a b : ℚ) (hb : b ≠ 0) : val a / val b = val (a / b) := by
  show PFloat.div (val a) (val b) = val (a / b)
  simp [PFloat.div, hb]

theorem maxOp_val_val (a b : ℚ) :
    PFloat.maxOp (val a) (val b) = val (max a b) := by
  simp only [PFloat.maxOp, PFloat.lt]
  by_cases h : a < b
  · simp [h, max_eq_right h.le]
  · simp [h, max_eq_left (not_lt.mp h)]

theorem foldl_maxOp_val (l : List PFloat) (a : ℚ)
    (hfin : ∀ x ∈ l, ∃ q : ℚ, x = val q) :
    ∃ m : ℚ, l.foldl PFloat.maxOp (val a) = val m ∧ a ≤ m ∧
      ∀ q : ℚ, val q ∈ l → q ≤ m := by
  induction l generalizing a with
  | nil => exact ⟨a, rfl, le_refl a, fun q hq => absurd hq (by simp)⟩
  | cons x t ih =>
    obtain ⟨qx, rfl⟩ := hfin x (List.mem_cons_self x t)
    rw [List.foldl_cons, maxOp_val_val]
    obtain ⟨m, hm, ham, hall⟩ :=
      ih (max a qx) (fun y hy => hfin y (List.mem_cons_of_mem _ hy))
    refine ⟨m, hm, le_trans (le_max_left _ _) ham, ?_⟩
    intro q hq
    rcases List.mem_cons.mp hq with heq | hq'
    · have : q = qx := PFloat.val.inj heq
      subst this
      exact le_trans (le_max_right a q) ham
    · exact hall q hq'

/-- A nonempty column of finite values has a finite `Series.max`, an
upper bound of the column. -/
theorem seriesMax_val (l : List PFloat) (hne : l ≠ [])
    (hfin : ∀ x ∈ l, ∃ q : ℚ, x = val q) :
    ∃ m : ℚ, seriesMax l = val m ∧ ∀ q : ℚ, val q ∈ l → q ≤ m := by
  obtain ⟨x, t, rfl⟩ := List.exists_cons_of_ne_nil hne
  obtain ⟨qx, rfl⟩ := hfin _ (List.mem_cons_self x t)
  unfold seriesMax
  rw [List.foldl_cons]
  have hstep : PFloat.maxOp nan (val qx) = val qx := rfl
  rw [hstep]
  obtain ⟨m, hm, ham, hall⟩ :=
    foldl_maxOp_val t qx (fun y hy => hfin y (List.mem_cons_of_mem _ hy))
  refine ⟨m, hm, ?_⟩
  intro q hq
  rcases List.mem_cons.mp hq with heq | hq'
  · have : q = qx := PFloat.val.inj heq
    subst this
    exact ham
  · exact hall q hq'

/-- A successful `find?` splits the list into a prefix of non-matches,
the found element, and a suffix. -/
theorem find?_eq_some_split {p : α → Bool} {l : List α} {a : α}
    (h : l.find? p = some a) :
    p a = true ∧ ∃ l₁ l₂, l = l₁ ++ a :: l₂ ∧ ∀ x ∈ l₁, p x = false := by
  induction l with
  | nil => simp [List.find?] at h
  | cons x t ih =>
    cases hx : p x with
    | true =>
      rw [List.find?_cons_of_pos _ hx] at h
      cases h
      exact ⟨hx, [], t, rfl, by simp⟩
    | false =>
      rw [List.find?_cons_of_neg _ (by simp [hx])] at h
      obtain ⟨hp, l₁, l₂, rfl, hall⟩ := ih h
      refine ⟨hp, x :: l₁, l₂, rfl, ?_⟩
      intro y hy
      rcases List.mem_cons.mp hy with rfl | hy'
      · exact hx
      · exact hall y hy'

/-- In a pairwise-ordered list, the head of the suffix is related to
every element after it. -/
theorem pairwise_middle_right {R : α → α → Prop} {l₁ l₂ : List α}
    {a : α} (h : (l₁ ++ a :: l₂).Pairwise R) : ∀ x ∈ l₂, R a x := by
  have h2 := (List.pairwise_append.mp h).2.1
  exact (List.pairwise_cons.mp h2).1

/-- `filterMap` of an everywhere-`some` function preserves length. -/
theorem length_filterMap_of_isSome {f : α → Option β} {l : List α}
    (h : ∀ a ∈ l, (f a).isSome) : (l.filterMap f).length = l.length := by
  induction l with
  | nil => rfl
  | cons a t ih =>
    rw [List.filterMap_cons]
    cases hfa : f a with
    | none =>
      have := h a (List.mem_cons_self a t)
      rw [hfa] at this
      simp at this
    | some b =>
      simp only [List.length_cons]
      rw [ih (fun x hx => h x (List.mem_cons_of_mem _ hx))]

/-- Joining a nonempty group of truthy strings is truthy. -/
theorem pyJoin_ne_empty {sep : String} {g : List String} (hg : g ≠ [])
    (hmem : ∀ s ∈ g, s ≠ "") : pyJoin sep g ≠ "" := by
  match g with
  | [a] => exact hmem a (List.mem_cons_self a [])
  | a :: b :: rest =>
    show a ++ sep ++ pyJoin sep (b :: rest) ≠ ""
    intro hemp
    have ha : a ≠ "" := hmem a (List.mem_cons_self _ _)
    have hlen := congrArg String.length hemp
    rw [String.length_append, String.length_append] at hlen
    have : a.length = 0 := by
      have : ("" : String).length = 0 := rfl
      omega
    exact ha (String.ext (List.length_eq_zero.mp this))

/-- C1: at a candidate pool whose maximum rating is zero and whose
nutrition aggregates are missing for every member, the four normalized
terms of `retrieve_recipes` (lines 140-143) evaluate to NaN - the naive
divisions `0 / 0` and `NaN / NaN` - instead of defaulting to the
neutral value 0 required by the spec; the ranking nevertheless runs to
completion without raising on such missing fields. -/
theorem retrieve_norms_nan_not_neutral :
    ratingNormAt c1Pool ⟨0, 0, val 0, val 0, false, nan, nan, nan⟩ = nan ∧
    kcalNormAt c1Pool ⟨0, 0, val 0, val 0, false, nan, nan, nan⟩ = nan ∧
    fatNormAt c1Pool ⟨0, 0, val 0, val 0, false, nan, nan, nan⟩ = nan ∧
    ecoNormAt c1Pool ⟨0, 0, val 0, val 0, false, nan, nan, nan⟩ = nan ∧
    (retrieve_recipes sortByKeyDesc sortByKeyDesc c1Corpus [] 10 0 0
      0).toOption.isSome = true := by
  decide

/-- C2: on a loaded corpus with zero chunks, `retrieve_recipes` does
not return an empty sequence: the FAISS search pads all 50 results with
label `-1`, and `chunk_metadata[-1]` on the empty chunk list raises
`IndexError` - for every query embedding, `top_k`, weight setting and
sort implementation. -/
theorem retrieve_empty_corpus_raises
    (sortChunk : (ChunkRow → PFloat) → List ChunkRow → List ChunkRow)
    (sortScored : (JoinedRow × PFloat → PFloat) →
      List (JoinedRow × PFloat) → List (JoinedRow × PFloat))
    (recipes : List RecipeMeta) (q_emb : List ℚ) (top_k : ℕ)
    (w1 w2 w3 : ℚ) :
    retrieve_recipes sortChunk sortScored ⟨recipes, [], []⟩ q_emb top_k
      w1 w2 w3 = Except.error "IndexError: list index out of range" :=
  rfl

/-- C5 counterexample: a record with no title and a single ingredient
whose name is the empty (falsy) string yields zero chunks, while the
claimed formula gives ceil(1/5) + 0 = 1: the comma-join of the trailing
singleton group is falsy and the chunk is dropped. -/
theorem create_recipe_chunks_count_cex :
    (create_recipe_chunks
        ⟨"", nan, false, nan, nan, nan, nan, [⟨"", "1", "g"⟩]⟩ 5).length ≠
      (([(⟨"", "1", "g"⟩ : Ingredient)].length + 5 - 1) / 5 +
        (if ("" : String) ≠ "" then 1 else 0)) := by
  simp [create_recipe_chunks, chunkList, pyJoin]

/-- C5 (amended): when every ingredient name is truthy (non-empty) and
the chunk size is positive, `create_recipe_chunks` emits exactly
ceil(ingredient_count / chunk_size) + (1 if the title is non-empty
else 0) chunks; a record with no title and no ingredients yields zero
chunks; and the chunker is deterministic (a pure function of the
record). -/
theorem create_recipe_chunks_count (r : RecipeMeta) (chunk_size : ℕ)
    (hcs : chunk_size ≠ 0)
    (hnames : ∀ ing ∈ r.ingredients, ing.name ≠ "") :
    (create_recipe_chunks r chunk_size).length =
      (r.ingredients.length + chunk_size - 1) / chunk_size +
        (if r.title ≠ "" then 1 else 0) ∧
    (r.title = "" → r.ingredients = [] →
      create_recipe_chunks r chunk_size = []) ∧
    create_recipe_chunks r chunk_size = create_recipe_chunks r chunk_size
    := by
  refine ⟨?_, ?_, rfl⟩
  · unfold create_recipe_chunks
    rw [List.length_append]
    have hnames' : ∀ g ∈ chunkList chunk_size
        (r.ingredients.map Ingredient.name), pyJoin ", " g ≠ "" := by
      intro g hg
      apply pyJoin_ne_empty (chunkList_ne_nil _ hcs _ g hg)
      intro s hs
      have hsmem := chunkList_subset _ _ g hg s hs
      obtain ⟨ing, hing, rfl⟩ := List.mem_map.mp hsmem
      exact hnames ing hing
    have hsome : ∀ g ∈ chunkList chunk_size
        (r.ingredients.map Ingredient.name),
        ((fun g =>
          let sub := pyJoin ", " g
          if sub ≠ "" then some ("Ingredients: " ++ sub) else none) g
          ).isSome := by
      intro g hg
      simp only [ne_eq, ite_not, Option.isSome]
      rw [if_neg (hnames' g hg)]
    rw [length_filterMap_of_isSome hsome, chunkList_length _ hcs,
      List.length_map]
    split_ifs <;> simp only [List.length_singleton, List.length_nil] <;>
      omega
  · intro ht hi
    unfold create_recipe_chunks
    simp [ht, hi, chunkList]

/-- C5 witness: the amended chunk-count formula applied to a record
with a title and seven truthy ingredient names (three chunks: one
title, two ingredient groups). -/
theorem create_recipe_chunks_count_witness :
    ((5 : ℕ) ≠ 0) ∧ (∀ ing ∈ w5Rec.ingredients, ing.name ≠ "") ∧
    ((create_recipe_chunks w5Rec 5).length =
      (w5Rec.ingredients.length + 5 - 1) / 5 +
        (if w5Rec.title ≠ "" then 1 else 0) ∧
    (w5Rec.title = "" → w5Rec.ingredients = [] →
      create_recipe_chunks w5Rec 5 = []) ∧
    create_recipe_chunks w5Rec 5 = create_recipe_chunks w5Rec 5) :=
  ⟨by decide, by decide,
    create_recipe_chunks_count w5Rec 5 (by decide) (by decide)⟩

/-- C7 counterexample: on the empty text list, `embed_text_batch`
produces no batch, and `np.vstack` of zero arrays raises `ValueError`,
while a single call over the whole (empty) unpartitioned list yields
the empty vector sequence - so the equivalence fails at the empty
list. -/
theorem embed_batch_eq_single_cex :
    embed_text_batch (fun _ => ([1] : List ℚ)) id ([] : List String) 32 =
      Except.error "ValueError: need at least one array to concatenate"
      ∧
    embed_single (fun _ => ([1] : List ℚ)) id ([] : List String) = [] :=
  ⟨by simp [embed_text_batch, chunkList], rfl⟩

/-- C7 (amended): for every nonempty list of texts and every batch
size of at least 1, `embed_text_batch` produces the same vector
sequence, in the same order, as a single call over the whole
unpartitioned list, for every encode function (applied per string,
independent of its batch) and every row normalization. -/
theorem embed_batch_eq_single (encode : String → List ℚ)
    (normRow : List ℚ → List ℚ) (texts : List String) (batch_size : ℕ)
    (hbs : batch_size ≠ 0) (hne : texts ≠ []) :
    embed_text_batch encode normRow texts batch_size =
      Except.ok (embed_single encode normRow texts) := by
  unfold embed_text_batch embed_single
  dsimp only
  have hch : chunkList batch_size texts ≠ [] := by
    obtain ⟨a, t, rfl⟩ := List.exists_cons_of_ne_nil hne
    rw [chunkList_cons _ _ _ hbs]
    exact List.cons_ne_nil _ _
  have hemb : ((chunkList batch_size texts).map
      (fun b => b.map encode)).isEmpty = false := by
    rw [List.isEmpty_eq_false]
    simp [hch]
  rw [hemb]
  simp only [Bool.false_eq_true, if_false]
  have hflat : ((chunkList batch_size texts).map
      (fun b => b.map encode)).flatten = texts.map encode := by
    rw [← List.map_flatten, chunkList_join _ hbs]
  rw [hflat]

/-- C7 witness: the batching equivalence at a concrete three-text list
with batch size 2. -/
theorem embed_batch_eq_single_witness :
    ((2 : ℕ) ≠ 0) ∧ (["a", "b", "c"] ≠ ([] : List String)) ∧
    embed_text_batch (fun s => [(s.length : ℚ)]) id ["a", "b", "c"] 2 =
      Except.ok (embed_single (fun s => [(s.length : ℚ)]) id
        ["a", "b", "c"]) :=
  ⟨by decide, by decide,
    embed_batch_eq_single (fun s => [(s.length : ℚ)]) id ["a", "b", "c"]
      2 (by decide) (by decide)⟩

/-- C6: after `load_data`'s imputation step, the rating column has a
well-defined median of the present ratings, computed once over the full
corpus; every absent rating now carries that median; and every present
rating keeps its original value unchanged. -/
theorem load_data_fill_ratings_median (ratings : List (Option ℚ))
    (i : ℕ) (hp : ratings.filterMap id ≠ []) :
    ∃ m : ℚ, seriesMedian ratings = some m ∧
      (load_data_fill_ratings ratings).length = ratings.length ∧
      (ratings[i]? = some none →
        (load_data_fill_ratings ratings)[i]? = some (some m)) ∧
      (∀ v : ℚ, ratings[i]? = some (some v) →
        (load_data_fill_ratings ratings)[i]? = some (some v)) := by
  have hmed : ∃ m, seriesMedian ratings = some m := by
    unfold seriesMedian
    dsimp only
    have hlen :
        ¬(List.insertionSort (· ≤ ·) (ratings.filterMap id)).length = 0
        := by
      rw [List.length_insertionSort]
      exact fun h => hp (List.length_eq_zero.mp h)
    rw [if_neg hlen]
    split_ifs <;> exact ⟨_, rfl⟩
  obtain ⟨m, hm⟩ := hmed
  refine ⟨m, hm, by simp [load_data_fill_ratings], ?_, ?_⟩
  · intro h
    unfold load_data_fill_ratings
    dsimp only
    rw [List.getElem?_map, h]
    simp [hm]
  · intro v h
    unfold load_data_fill_ratings
    dsimp only
    rw [List.getElem?_map, h]
    rfl

/-- C6 witness: the median imputation applied to a four-recipe column
with one absent rating; the median of the present ratings 4, 2, 3
is 3. -/
theorem load_data_fill_ratings_median_witness :
    ([none, some 4, some 2, some 3].filterMap id ≠ ([] : List ℚ)) ∧
    (∃ m : ℚ,
      seriesMedian [none, some 4, some 2, some 3] = some m ∧
      (load_data_fill_ratings [none, some 4, some 2, some 3]).length =
        ([none, some 4, some 2, some 3] : List (Option ℚ)).length ∧
      (([none, some 4, some 2, some 3] : List (Option ℚ))[0]? =
          some none →
        (load_data_fill_ratings [none, some 4, some 2, some 3])[0]? =
          some (some m)) ∧
      (∀ v : ℚ,
        ([none, some 4, some 2, some 3] : List (Option ℚ))[0]? =
            some (some v) →
        (load_data_fill_ratings [none, some 4, some 2, some 3])[0]? =
          some (some v))) :=
  ⟨by decide,
    load_data_fill_ratings_median [none, some 4, some 2, some 3] 0
      (by decide)⟩

theorem precede_refl (x : PFloat) : precede x x := by
  by_cases h : x = nan
  · exact Or.inl h
  · exact Or.inr ⟨h, le_refl _⟩

theorem sortedUniqueIds_nodup (rows : List ChunkRow) :
    (sortedUniqueIds rows).Nodup :=
  ((List.perm_insertionSort _ _).nodup_iff).mpr (List.nodup_dedup _)

theorem mem_sortedUniqueIds (rows : List ChunkRow) (rid : ℕ) :
    rid ∈ sortedUniqueIds rows ↔
      rid ∈ rows.map (fun r => r.recipe_id) := by
  unfold sortedUniqueIds
  rw [List.mem_insertionSort]
  exact List.mem_dedup

theorem filterMap_find?_map_ids (rows : List ChunkRow) (ids : List ℕ)
    (h : ∀ rid ∈ ids, ∃ x ∈ rows, x.recipe_id = rid) :
    ((ids.filterMap (fun rid =>
        rows.find? (fun r => r.recipe_id == rid))).map
      (fun r => r.recipe_id)) = ids := by
  induction ids with
  | nil => rfl
  | cons rid t ih =>
    obtain ⟨x, hx, hxid⟩ := h rid (List.mem_cons_self _ _)
    have hfind : (rows.find? (fun r => r.recipe_id == rid)).isSome := by
      rw [List.find?_isSome]
      exact ⟨x, hx, by simp [hxid]⟩
    obtain ⟨r, hr⟩ := Option.isSome_iff_exists.mp hfind
    have hrid : r.recipe_id = rid := by
      have := List.find?_some hr
      simpa using this
    rw [List.filterMap_cons, hr]
    simp only [List.map_cons, hrid]
    rw [ih (fun y hy => h y (List.mem_cons_of_mem _ hy))]

/-- The recipe-id column of the deduplicated frame is exactly the
sorted distinct id list of the input frame. -/
theorem dedupGroupFirst_map_ids (rows : List ChunkRow) :
    (dedupGroupFirst rows).map (fun r => r.recipe_id) =
      sortedUniqueIds rows := by
  unfold dedupGroupFirst
  apply filterMap_find?_map_ids
  intro rid hrid
  obtain ⟨x, hx, hxid⟩ :=
    List.mem_map.mp ((mem_sortedUniqueIds rows rid).mp hrid)
  exact ⟨x, hx, hxid⟩

/-- C3 counterexample: two chunks of the same recipe with equal scores,
global chunk ids 0 and 1 (so within-recipe chunk ids 0 and 1).  The
frame sorted with the lower-id chunk second is a valid output of the
unstable `sort_values`, and deduplication then keeps chunk 1, not the
lowest-id chunk 0 the claim requires. -/
theorem dedup_highest_chunk_cex :
    IsSortValuesDescBy (fun r => r.faiss_score)
      [⟨0, 0, val 1⟩, ⟨0, 1, val 1⟩]
      [(⟨0, 1, val 1⟩ : ChunkRow), ⟨0, 0, val 1⟩] ∧
    (dedupGroupFirst [(⟨0, 1, val 1⟩ : ChunkRow), ⟨0, 0, val 1⟩]).map
      (fun r => r.chunk_id) = [1] := by
  constructor
  · exact ⟨by decide, by decide⟩
  · decide

/-- C3 (amended): for every valid output of the unstable descending
sort on `faiss_score`, the deduplicated frame has pairwise-distinct
recipe ids covering exactly the recipe ids of the candidate rows, and
each surviving row is one of the input rows carrying a score at least
that of every row of the same recipe (the maximum); which equal-score
chunk survives is implementation-defined, not necessarily the lowest
`global_chunk_id`. -/
theorem dedup_unique_max (rows out : List ChunkRow)
    (hsort : IsSortValuesDescBy (fun r => r.faiss_score) rows out) :
    ((dedupGroupFirst out).map (fun r => r.recipe_id)).Nodup ∧
    (∀ rid : ℕ,
      rid ∈ (dedupGroupFirst out).map (fun r => r.recipe_id) ↔
        rid ∈ rows.map (fun r => r.recipe_id)) ∧
    (∀ r ∈ dedupGroupFirst out, r ∈ rows ∧
      ∀ x ∈ rows, x.recipe_id = r.recipe_id →
        precede r.faiss_score x.faiss_score) := by
  obtain ⟨hperm, hpair⟩ := hsort
  refine ⟨?_, ?_, ?_⟩
  · rw [dedupGroupFirst_map_ids]
    exact sortedUniqueIds_nodup out
  · intro rid
    rw [dedupGroupFirst_map_ids, mem_sortedUniqueIds]
    exact (hperm.map (fun r => r.recipe_id)).mem_iff
  · intro r hr
    obtain ⟨rid, _hrid, hfind⟩ := List.mem_filterMap.mp hr
    obtain ⟨hp, l₁, l₂, hsplit, hpre⟩ := find?_eq_some_split hfind
    have hrid' : r.recipe_id = rid := by simpa using hp
    have hrout : r ∈ out := by
      rw [hsplit]
      exact List.mem_append_right _ (List.mem_cons_self _ _)
    refine ⟨hperm.subset hrout, ?_⟩
    intro x hx hxid
    have hxout : x ∈ out := hperm.symm.subset hx
    rw [hsplit] at hxout
    rcases List.mem_append.mp hxout with hx1 | hx2
    · exfalso
      have := hpre x hx1
      rw [hxid, hrid'] at this
      simp at this
    · rcases List.mem_cons.mp hx2 with rfl | hx3
      · exact precede_refl _
      · rw [hsplit] at hpair
        exact pairwise_middle_right hpair x hx3

/-- C3 witness: two chunks of recipe 0 with scores 0 and 1 fed
through a valid descending sort; the surviving row is unique, covers
recipe 0, and carries the higher score 1. -/
theorem dedup_unique_max_witness :
    IsSortValuesDescBy (fun r => r.faiss_score)
      [⟨0, 0, val 0⟩, ⟨0, 1, val 1⟩]
      [(⟨0, 1, val 1⟩ : ChunkRow), ⟨0, 0, val 0⟩] ∧
    (((dedupGroupFirst
        [(⟨0, 1, val 1⟩ : ChunkRow), ⟨0, 0, val 0⟩]).map
        (fun r => r.recipe_id)).Nodup ∧
    (∀ rid : ℕ,
      rid ∈ (dedupGroupFirst
          [(⟨0, 1, val 1⟩ : ChunkRow), ⟨0, 0, val 0⟩]).map
            (fun r => r.recipe_id) ↔
        rid ∈ [(⟨0, 0, val 0⟩ : ChunkRow),
          ⟨0, 1, val 1⟩].map (fun r => r.recipe_id)) ∧
    (∀ r ∈ dedupGroupFirst
        [(⟨0, 1, val 1⟩ : ChunkRow), ⟨0, 0, val 0⟩],
      r ∈ [(⟨0, 0, val 0⟩ : ChunkRow), ⟨0, 1, val 1⟩] ∧
      ∀ x ∈ [(⟨0, 0, val 0⟩ : ChunkRow), ⟨0, 1, val 1⟩],
        x.recipe_id = r.recipe_id →
          precede r.faiss_score x.faiss_score)) := by
  refine ⟨⟨?_, ?_⟩, ?_⟩
  · decide
  · decide
  · exact dedup_unique_max _ _ ⟨by decide, by decide⟩

/-- C4 counterexample: two candidates with equal `final_score` (all
components identical, recipe ids 0 and 1).  The frame sorted with
recipe 1 first is a valid output of the unstable descending
`sort_values`, and the head of the returned top-k has the ids in
descending order `[1, 0]`, not the ascending order the claim
requires. -/
theorem final_sort_topk_cex :
    IsSortValuesDescBy (fun p => p.2)
      ([c4RowA, c4RowB].map (fun r =>
        (r, finalScoreAt [c4RowA, c4RowB] 0 0 0 r)))
      [(c4RowB, val 1), (c4RowA, val 1)] ∧
    (([(c4RowB, val 1), (c4RowA, val 1)].take 10).map
      (fun p => p.1.recipe_id)) = [1, 0] := by
  have hmap : [c4RowA, c4RowB].map (fun r =>
      (r, finalScoreAt [c4RowA, c4RowB] 0 0 0 r)) =
      [(c4RowA, val 1), (c4RowB, val 1)] := by
    norm_num [finalScoreAt, ratingNormAt, kcalNormAt, fatNormAt,
      ecoNormAt, ecoHealthyAt, vegFloat, seriesMax, PFloat.maxOp,
      PFloat.lt, val_add, val_mul, val_sub, val_div, c4RowA, c4RowB]
  rw [hmap]
  exact ⟨⟨by decide, by decide⟩, by decide⟩

/-- C4 (amended): for every valid output of the unstable descending
sort on `final_score` over the scored candidate pool, the first `top_k`
rows are pairwise ordered by descending `final_score` (NaN scores
last), each is a candidate of the pool carrying its composite score,
every truncated row scores no better than every returned row, and
exactly `min top_k pool_size` rows are returned; the relative order of
rows with equal `final_score` is implementation-defined, not
necessarily ascending `recipe_id`. -/
theorem final_sort_topk (pool : List JoinedRow) (w1 w2 w3 : ℚ) (k : ℕ)
    (out : List (JoinedRow × PFloat))
    (hsort : IsSortValuesDescBy (fun p => p.2)
      (pool.map (fun r => (r, finalScoreAt pool w1 w2 w3 r))) out) :
    (out.take k).Pairwise (fun a b => precede a.2 b.2) ∧
    (∀ p ∈ out.take k, p.1 ∈ pool ∧
      p.2 = finalScoreAt pool w1 w2 w3 p.1) ∧
    (∀ q ∈ out.drop k, ∀ p ∈ out.take k, precede p.2 q.2) ∧
    (out.take k).length = min k pool.length := by
  obtain ⟨hperm, hpair⟩ := hsort
  refine ⟨?_, ?_, ?_, ?_⟩
  · exact hpair.sublist (List.take_sublist k out)
  · intro p hp
    have hpmem : p ∈ out := List.mem_of_mem_take hp
    obtain ⟨r, hr, rfl⟩ := List.mem_map.mp (hperm.subset hpmem)
    exact ⟨hr, rfl⟩
  · intro q hq p hp
    have h := hpair
    rw [← List.take_append_drop k out] at h
    exact (List.pairwise_append.mp h).2.2 p hp q hq
  · rw [List.length_take, hperm.length_eq, List.length_map]

/-- C4 witness: the top-k theorem applied to the concrete two-candidate
tie pool and the valid sort output that lists recipe 1 first. -/
theorem final_sort_topk_witness :
    IsSortValuesDescBy (fun p => p.2)
      ([c4RowA, c4RowB].map (fun r =>
        (r, finalScoreAt [c4RowA, c4RowB] 0 0 0 r)))
      [(c4RowA, val 1), (c4RowB, val 1)] ∧
    (([(c4RowA, val 1), (c4RowB, val 1)].take 2).Pairwise
      (fun a b => precede a.2 b.2) ∧
    (∀ p ∈ [(c4RowA, val 1), (c4RowB, val 1)].take 2,
      p.1 ∈ [c4RowA, c4RowB] ∧
      p.2 = finalScoreAt [c4RowA, c4RowB] 0 0 0 p.1) ∧
    (∀ q ∈ [(c4RowA, val 1), (c4RowB, val 1)].drop 2,
      ∀ p ∈ [(c4RowA, val 1), (c4RowB, val 1)].take 2,
        precede p.2 q.2) ∧
    ([(c4RowA, val 1), (c4RowB, val 1)].take 2).length =
      min 2 [c4RowA, c4RowB].length) := by
  have hmap : [c4RowA, c4RowB].map (fun r =>
      (r, finalScoreAt [c4RowA, c4RowB] 0 0 0 r)) =
      [(c4RowA, val 1), (c4RowB, val 1)] := by
    norm_num [finalScoreAt, ratingNormAt, kcalNormAt, fatNormAt,
      ecoNormAt, ecoHealthyAt, vegFloat, seriesMax, PFloat.maxOp,
      PFloat.lt, val_add, val_mul, val_sub, val_div, c4RowA, c4RowB]
  have hsort : IsSortValuesDescBy (fun p => p.2)
      ([c4RowA, c4RowB].map (fun r =>
        (r, finalScoreAt [c4RowA, c4RowB] 0 0 0 r)))
      [(c4RowA, val 1), (c4RowB, val 1)] := by
    rw [hmap]
    exact ⟨by decide, by decide⟩
  exact ⟨hsort, final_sort_topk [c4RowA, c4RowB] 0 0 0 2 _ hsort⟩

/-- C9: for two post-dedup candidates A and B of the same pool with
finite scores, A strictly higher-rated, and every other score component
equal, both final scores are finite at every nonnegative
`rating_weight`, B never scores above A, and the score gap in A's
favour is monotone in the weight: increasing `rating_weight` never
moves A below B in the descending-final-score order. -/
theorem rating_weight_monotone (pool : List JoinedRow)
    (A B : JoinedRow) (hA : A ∈ pool) (hB : B ∈ pool) (ra rb : ℚ)
    (hra : A.rating = val ra) (hrb : B.rating = val rb)
    (hlt : rb < ra) (hnn : 0 ≤ rb)
    (hfin : ∀ r ∈ pool,
      r.rating ≠ nan ∧ r.rating ≠ pinf ∧ r.rating ≠ ninf)
    (s : ℚ) (hsimA : A.faiss_score = val s)
    (hsimB : B.faiss_score = val s)
    (hveg : A.is_vegetarian = B.is_vegetarian)
    (e : ℚ) (hecoA : ecoHealthyAt pool A = val e)
    (hecoB : ecoHealthyAt pool B = val e)
    (w w' vb ew : ℚ) (hw : 0 ≤ w) (hww : w ≤ w') :
    ∃ fa fb fa' fb' : ℚ,
      finalScoreAt pool w vb ew A = val fa ∧
      finalScoreAt pool w vb ew B = val fb ∧
      finalScoreAt pool w' vb ew A = val fa' ∧
      finalScoreAt pool w' vb ew B = val fb' ∧
      fb ≤ fa ∧ fb' ≤ fa' ∧ fa - fb ≤ fa' - fb' := by
  have hvals : ∀ x ∈ pool.map (fun r => r.rating), ∃ q : ℚ, x = val q
      := by
    intro x hx
    obtain ⟨r, hr, rfl⟩ := List.mem_map.mp hx
    obtain ⟨h1, h2, h3⟩ := hfin r hr
    cases hxr : r.rating with
    | nan => exact absurd hxr h1
    | pinf => exact absurd hxr h2
    | ninf => exact absurd hxr h3
    | val q => exact ⟨q, rfl⟩
  have hne : pool.map (fun r => r.rating) ≠ [] := by
    intro h
    rw [List.map_eq_nil_iff] at h
    rw [h] at hA
    exact absurd hA (List.not_mem_nil A)
  obtain ⟨m, hm, hmax⟩ :=
    seriesMax_val (pool.map (fun r => r.rating)) hne hvals
  have hram : ra ≤ m := by
    apply hmax
    rw [← hra]
    exact List.mem_map_of_mem (fun r => r.rating) hA
  have hmpos : 0 < m := lt_of_lt_of_le (lt_of_le_of_lt hnn hlt) hram
  have hmne : m ≠ 0 := ne_of_gt hmpos
  have hnormA : ratingNormAt pool A = val (ra / m) := by
    unfold ratingNormAt
    rw [hra, hm, val_div _ _ hmne]
  have hnormB : ratingNormAt pool B = val (rb / m) := by
    unfold ratingNormAt
    rw [hrb, hm, val_div _ _ hmne]
  set v : ℚ := if A.is_vegetarian then 1 else 0 with hv
  have hvegA : vegFloat A = val v := rfl
  have hvegB : vegFloat B = val v := by
    unfold vegFloat
    rw [← hveg]
  have hfA : ∀ u : ℚ, finalScoreAt pool u vb ew A =
      val (s + u * (ra / m) + vb * v + ew * e) := by
    intro u
    unfold finalScoreAt
    rw [hsimA, hnormA, hvegA, hecoA, val_mul, val_add, val_mul, val_add,
      val_mul, val_add]
  have hfB : ∀ u : ℚ, finalScoreAt pool u vb ew B =
      val (s + u * (rb / m) + vb * v + ew * e) := by
    intro u
    unfold finalScoreAt
    rw [hsimB, hnormB, hvegB, hecoB, val_mul, val_add, val_mul, val_add,
      val_mul, val_add]
  refine ⟨s + w * (ra / m) + vb * v + ew * e,
    s + w * (rb / m) + vb * v + ew * e,
    s + w' * (ra / m) + vb * v + ew * e,
    s + w' * (rb / m) + vb * v + ew * e,
    hfA w, hfB w, hfA w', hfB w', ?_, ?_, ?_⟩ <;>
  · have hdiv : rb / m ≤ ra / m := by gcongr
    have hd : 0 ≤ ra / m - rb / m := sub_nonneg.mpr hdiv
    have h1 : 0 ≤ w * (ra / m - rb / m) := mul_nonneg hw hd
    have h2 : w * (ra / m - rb / m) ≤ w' * (ra / m - rb / m) :=
      mul_le_mul_of_nonneg_right hww hd
    have h3 : 0 ≤ w' * (ra / m - rb / m) := le_trans h1 h2
    rw [mul_sub] at h1 h2 h3
    linarith

/-- C9 witness: the monotonicity theorem at a concrete two-candidate
pool (ratings 4 and 2, all other components equal), moving the rating
weight from 0 to 1. -/
theorem rating_weight_monotone_witness :
    ((2 : ℚ) < 4) ∧ ((0 : ℚ) ≤ 2) ∧ ((0 : ℚ) ≤ 0) ∧ ((0 : ℚ) ≤ 1) ∧
    (∃ fa fb fa' fb' : ℚ,
      finalScoreAt [c9A, c9B] 0 0 0 c9A = val fa ∧
      finalScoreAt [c9A, c9B] 0 0 0 c9B = val fb ∧
      finalScoreAt [c9A, c9B] 1 0 0 c9A = val fa' ∧
      finalScoreAt [c9A, c9B] 1 0 0 c9B = val fb' ∧
      fb ≤ fa ∧ fb' ≤ fa' ∧ fa - fb ≤ fa' - fb') := by
  have hecoA : ecoHealthyAt [c9A, c9B] c9A = val 0 := by
    norm_num [ecoHealthyAt, kcalNormAt, fatNormAt, ecoNormAt, seriesMax,
      PFloat.maxOp, PFloat.lt, val_add, val_mul, val_sub, val_div, c9A,
      c9B]
  have hecoB : ecoHealthyAt [c9A, c9B] c9B = val 0 := by
    norm_num [ecoHealthyAt, kcalNormAt, fatNormAt, ecoNormAt, seriesMax,
      PFloat.maxOp, PFloat.lt, val_add, val_mul, val_sub, val_div, c9A,
      c9B]
  refine ⟨by norm_num, by norm_num, le_refl 0, by norm_num, ?_⟩
  exact rating_weight_monotone [c9A, c9B] c9A c9B
    (by decide) (by decide) 4 2 rfl rfl (by norm_num) (by norm_num)
    (by decide) 1 rfl rfl rfl 0 hecoA hecoB 0 1 0 0 (le_refl 0)
    (by norm_num)

theorem pyGet_ofNat (l : List α) (i : ℕ) (hi : i < l.length) :
    pyGet l (i : Int) = Except.ok (l.get ⟨i, hi⟩) := by
  unfold pyGet
  dsimp only
  rw [if_neg (by omega : ¬ ((i : Int) < 0)),
    if_pos (by omega : (0 : Int) ≤ (i : Int))]
  have ht : ((i : Int)).toNat = i := rfl
  rw [ht, List.get?_eq_get hi]

/-- Python index `-1` resolves to the last element of a nonempty
list. -/
theorem pyGet_neg_one (l : List α) (hne : l ≠ []) :
    pyGet l (-1) = Except.ok (l.getLast hne) := by
  have hlen : 0 < l.length := List.length_pos.mpr hne
  unfold pyGet
  dsimp only
  rw [if_pos (by omega : (-1 : Int) < 0),
    if_pos (by omega : (0 : Int) ≤ -1 + (l.length : Int))]
  have ht : ((-1 : Int) + (l.length : Int)).toNat = l.length - 1 := by
    omega
  have hlt : l.length - 1 < l.length := by omega
  rw [ht, List.get?_eq_get hlt]
  have : l.getLast hne = l.get ⟨l.length - 1, hlt⟩ := by
    rw [List.getLast_eq_getElem]
    rfl
  rw [this]

theorem buildRows_ok_of_indices (cm : List ChunkMeta)
    (res : List (PFloat × Int))
    (h : ∀ p ∈ res, ∃ i : ℕ, p.2 = (i : Int) ∧ i < cm.length) :
    ∃ rows, buildRows cm res = Except.ok rows ∧
      rows.length = res.length ∧
      ∀ r ∈ rows, ∃ mcm ∈ cm, r.recipe_id = mcm.recipe_id ∧
        r.chunk_id = mcm.chunk_id := by
  induction res with
  | nil => exact ⟨[], rfl, rfl, by simp⟩
  | cons p rest ih =>
    obtain ⟨i, hp2, hilt⟩ := h p (List.mem_cons_self _ _)
    obtain ⟨rows, hrows, hlen, hprop⟩ :=
      ih (fun q hq => h q (List.mem_cons_of_mem _ hq))
    refine ⟨⟨(cm.get ⟨i, hilt⟩).recipe_id, (cm.get ⟨i, hilt⟩).chunk_id,
      p.1⟩ :: rows, ?_, by simp [hlen], ?_⟩
    · show (do
        let meta ← pyGet cm p.2
        let rows' ← buildRows cm rest
        Except.ok ({ recipe_id := meta.recipe_id
                     chunk_id := meta.chunk_id
                     faiss_score := p.1 : ChunkRow } :: rows')) = _
      rw [hp2, pyGet_ofNat cm i hilt, hrows]
      rfl
    · intro r hr
      rcases List.mem_cons.mp hr with rfl | hr'
      · exact ⟨cm.get ⟨i, hilt⟩, List.get_mem cm i hilt, rfl, rfl⟩
      · exact hprop r hr'

theorem buildRows_replicate_pad (cm : List ChunkMeta) (hne : cm ≠ [])
    (n : ℕ) :
    buildRows cm (List.replicate n (ninf, -1)) =
      Except.ok (List.replicate n
        ⟨(cm.getLast hne).recipe_id, (cm.getLast hne).chunk_id, ninf⟩)
    := by
  induction n with
  | zero => rfl
  | succ k ih =>
    rw [List.replicate_succ]
    show (do
      let meta ← pyGet cm (-1)
      let rows ← buildRows cm (List.replicate k (ninf, -1))
      Except.ok ({ recipe_id := meta.recipe_id
                   chunk_id := meta.chunk_id
                   faiss_score := ninf : ChunkRow } :: rows)) = _
    rw [pyGet_neg_one cm hne, ih, List.replicate_succ]
    rfl

theorem buildRows_append_ok (cm : List ChunkMeta)
    (l₁ l₂ : List (PFloat × Int)) (r₁ r₂ : List ChunkRow)
    (h₁ : buildRows cm l₁ = Except.ok r₁)
    (h₂ : buildRows cm l₂ = Except.ok r₂) :
    buildRows cm (l₁ ++ l₂) = Except.ok (r₁ ++ r₂) := by
  induction l₁ generalizing r₁ with
  | nil =>
    cases h₁
    exact h₂
  | cons p rest ih =>
    rw [List.cons_append]
    cases hres : pyGet cm p.2 with
    | error e =>
      rw [buildRows, hres] at h₁
      exact absurd h₁ (by simp [Bind.bind, Except.bind])
    | ok mcm =>
      cases hrest : buildRows cm rest with
      | error e =>
        rw [buildRows, hres, hrest] at h₁
        exact absurd h₁ (by simp [Bind.bind, Except.bind])
      | ok rs =>
        rw [buildRows, hres, hrest] at h₁
        simp only [Bind.bind, Except.bind, Except.ok.injEq] at h₁
        subst h₁
        show (do
          let meta ← pyGet cm p.2
          let rows ← buildRows cm (rest ++ l₂)
          Except.ok ({ recipe_id := meta.recipe_id
                       chunk_id := meta.chunk_id
                       faiss_score := p.1 : ChunkRow } :: rows)) = _
        rw [hres, ih rs hrest]
        rfl

/-- C10 counterexample: a corpus with exactly one stored chunk.  The
search pads 49 of its 50 results with label `-1`, and the row-building
loop still builds 50 candidate rows - the 49 padding rows resolve (by
Python negative indexing) to the single stored chunk with the sentinel
negative-infinity score - contradicting the claim that no candidate is
derived from a padding index. -/
theorem buildRows_padding_cex :
    buildRows [⟨0, 0, 0, "Title: X"⟩] (searchIndex [[]] [] 50) =
      Except.ok (⟨0, 0, val 0⟩ :: List.replicate 49
        (⟨0, 0, ninf⟩ : ChunkRow)) ∧
    ([(⟨0, 0, 0, "Title: X"⟩ : ChunkMeta)].length = 1) :=
  ⟨by decide, rfl⟩

/-- C10 (amended): when the index stores between 1 and 49 chunks, the
row-building loop of `retrieve_recipes` succeeds and returns 50
candidate rows: one true nearest-neighbor row per stored chunk, PLUS
`50 - M` rows derived from the padding index `-1`, which Python's
negative indexing resolves to the last stored chunk, carrying the
sentinel negative-infinity similarity - padding-derived candidate rows
do exist. -/
theorem buildRows_padding (corpus : Corpus) (q_emb : List ℚ)
    (hlen : corpus.vectors.length = corpus.chunk_metadata.length)
    (h1 : corpus.chunk_metadata ≠ [])
    (h50 : corpus.chunk_metadata.length < 50) :
    ∃ realRows,
      buildRows corpus.chunk_metadata
        (searchIndex corpus.vectors q_emb 50) =
        Except.ok (realRows ++ List.replicate
          (50 - corpus.chunk_metadata.length)
          ⟨(corpus.chunk_metadata.getLast h1).recipe_id,
           (corpus.chunk_metadata.getLast h1).chunk_id, ninf⟩) ∧
      realRows.length = corpus.chunk_metadata.length ∧
      (∀ r ∈ realRows, ∃ mcm ∈ corpus.chunk_metadata,
        r.recipe_id = mcm.recipe_id ∧ r.chunk_id = mcm.chunk_id) ∧
      1 ≤ 50 - corpus.chunk_metadata.length := by
  unfold searchIndex
  dsimp only
  set scored := corpus.vectors.enum.map
    (fun p => (ipScore q_emb p.2, p.1)) with hscored
  set ranked := (List.insertionSort searchRank scored).map
    (fun p => ((val p.1 : PFloat), (p.2 : Int))) with hranked
  have hrankedlen : ranked.length = corpus.chunk_metadata.length := by
    rw [hranked, List.length_map,
      (List.perm_insertionSort searchRank scored).length_eq, hscored,
      List.length_map, List.enum_length, hlen]
  have htake : ranked.take 50 = ranked :=
    List.take_of_length_le (by omega)
  rw [htake, hrankedlen]
  have hidx : ∀ p ∈ ranked, ∃ i : ℕ, p.2 = (i : Int) ∧
      i < corpus.chunk_metadata.length := by
    intro p hp
    rw [hranked] at hp
    obtain ⟨y, hy, rfl⟩ := List.mem_map.mp hp
    rw [List.mem_insertionSort, hscored] at hy
    obtain ⟨z, hz, rfl⟩ := List.mem_map.mp hy
    refine ⟨z.1, rfl, ?_⟩
    rw [← hlen]
    exact List.fst_lt_of_mem_enum hz
  obtain ⟨rows, hrows, hrowslen, hprop⟩ :=
    buildRows_ok_of_indices corpus.chunk_metadata ranked hidx
  refine ⟨rows, ?_, by rw [hrowslen, hrankedlen], hprop, by omega⟩
  exact buildRows_append_ok _ _ _ _ _ hrows
    (buildRows_replicate_pad corpus.chunk_metadata h1 _)

/-- C10 witness: the padding theorem applied to the one-chunk corpus
`c10Corpus` with an empty query embedding. -/
theorem buildRows_padding_witness :
    (c10Corpus.vectors.length = c10Corpus.chunk_metadata.length) ∧
    (c10Corpus.chunk_metadata ≠ []) ∧
    (c10Corpus.chunk_metadata.length < 50) ∧
    (∃ realRows,
      buildRows c10Corpus.chunk_metadata
        (searchIndex c10Corpus.vectors [] 50) =
        Except.ok (realRows ++ List.replicate
          (50 - c10Corpus.chunk_metadata.length)
          ⟨(c10Corpus.chunk_metadata.getLast (by decide)).recipe_id,
           (c10Corpus.chunk_metadata.getLast (by decide)).chunk_id,
           ninf⟩) ∧
      realRows.length = c10Corpus.chunk_metadata.length ∧
      (∀ r ∈ realRows, ∃ mcm ∈ c10Corpus.chunk_metadata,
        r.recipe_id = mcm.recipe_id ∧ r.chunk_id = mcm.chunk_id) ∧
      1 ≤ 50 - c10Corpus.chunk_metadata.length) :=
  ⟨by decide, by decide, by decide,
    buildRows_padding c10Corpus [] (by decide) (by decide) (by decide)⟩

/-- The chunk-metadata fold of `process` in closed form. -/
theorem processChunks_eq_blocksR (md : List RecipeMeta) :
    processChunks md = blocksR 0 0 md := by
  have h : ∀ (l : List RecipeMeta) (rid : ℕ) (acc : List ChunkMeta),
      (List.enumFrom rid l).foldl (fun acc p =>
        acc ++ (create_recipe_chunks p.2).enum.map (fun q =>
          { global_chunk_id := acc.length + q.1
            recipe_id := p.1
            chunk_id := q.1
            text := q.2 })) acc = acc ++ blocksR rid acc.length l := by
    intro l
    induction l with
    | nil =>
      intro rid acc
      simp [blocksR]
    | cons row rest ih =>
      intro rid acc
      rw [List.enumFrom_cons, List.foldl_cons, ih (rid + 1) _]
      rw [blocksR]
      rw [List.append_assoc]
      have hlen : (acc ++ (create_recipe_chunks row).enum.map (fun q =>
          ({ global_chunk_id := acc.length + q.1
             recipe_id := rid
             chunk_id := q.1
             text := q.2 } : ChunkMeta))).length =
          acc.length + (create_recipe_chunks row).length := by
        rw [List.length_append, List.length_map, List.enum_length]
      rw [hlen]
  unfold processChunks
  exact h md 0 []

/-- The global chunk ids of a block list are consecutive starting at
the offset. -/
theorem blocksR_map_gid (md : List RecipeMeta) (rid n : ℕ) :
    (blocksR rid n md).map (fun c => c.global_chunk_id) =
      List.range' n ((blocksR rid n md).length) := by
  induction md generalizing rid n with
  | nil => rfl
  | cons row rest ih =>
    rw [blocksR, List.map_append, List.length_append, ih]
    have hhead : ((create_recipe_chunks row).enum.map (fun q =>
        ({ global_chunk_id := n + q.1
           recipe_id := rid
           chunk_id := q.1
           text := q.2 } : ChunkMeta))).map (fun c => c.global_chunk_id)
        = List.range' n (create_recipe_chunks row).length := by
      rw [List.map_map]
      have : ((fun c : ChunkMeta => c.global_chunk_id) ∘ (fun q =>
          ({ global_chunk_id := n + q.1
             recipe_id := rid
             chunk_id := q.1
             text := q.2 } : ChunkMeta))) =
          ((fun x => n + x) ∘ Prod.fst) := rfl
      rw [this, ← List.map_map, List.enum_map_fst,
        ← List.range'_eq_map_range]
    rw [hhead]
    have hlen : ((create_recipe_chunks row).enum.map (fun q =>
        ({ global_chunk_id := n + q.1
           recipe_id := rid
           chunk_id := q.1
           text := q.2 } : ChunkMeta))).length =
        (create_recipe_chunks row).length := by
      rw [List.length_map, List.enum_length]
    rw [hlen]
    have := List.range'_append n (create_recipe_chunks row).length
      ((blocksR (rid + 1) (n + (create_recipe_chunks row).length)
        rest).length) 1
    simp only [one_mul] at this
    rw [this]
    congr 1
    omega

/-- The texts of a block list are the chunker outputs in order. -/
theorem blocksR_map_text (md : List RecipeMeta) (rid n : ℕ) :
    (blocksR rid n md).map (fun c => c.text) =
      (md.map (fun row => create_recipe_chunks row)).flatten := by
  induction md generalizing rid n with
  | nil => rfl
  | cons row rest ih =>
    rw [blocksR, List.map_append, List.map_cons, List.flatten_cons, ih]
    congr 1
    rw [List.map_map]
    have : ((fun c : ChunkMeta => c.text) ∘ (fun q =>
        ({ global_chunk_id := n + q.1
           recipe_id := rid
           chunk_id := q.1
           text := q.2 } : ChunkMeta))) = Prod.snd := rfl
    rw [this, List.enum_map_snd]

/-- Every entry of a block list carries a recipe id at least the
starting id. -/
theorem blocksR_rid_ge (md : List RecipeMeta) (rid n : ℕ) :
    ∀ c ∈ blocksR rid n md, rid ≤ c.recipe_id := by
  induction md generalizing rid n with
  | nil => simp [blocksR]
  | cons row rest ih =>
    intro c hc
    rw [blocksR] at hc
    rcases List.mem_append.mp hc with h1 | h2
    · obtain ⟨q, _, rfl⟩ := List.mem_map.mp h1
      exact le_refl rid
    · exact le_trans (Nat.le_succ rid) (ih (rid + 1) _ c h2)

/-- Filtering a block list to one recipe id recovers exactly that
recipe's chunker output, enumerated from 0 in chunker order. -/
theorem blocksR_filter (md : List RecipeMeta) (rid₀ n i : ℕ)
    (row : RecipeMeta) (hget : md.get? i = some row) :
    ((blocksR rid₀ n md).filter
        (fun c => c.recipe_id == rid₀ + i)).map
      (fun c => (c.chunk_id, c.text)) = (create_recipe_chunks row).enum
    := by
  induction md generalizing rid₀ n i with
  | nil => simp at hget
  | cons r rest ih =>
    rw [blocksR, List.filter_append]
    cases i with
    | zero =>
      rw [List.get?_cons_zero] at hget
      cases hget
      have hkeep : ((create_recipe_chunks row).enum.map (fun q =>
          ({ global_chunk_id := n + q.1
             recipe_id := rid₀
             chunk_id := q.1
             text := q.2 } : ChunkMeta))).filter
          (fun c => c.recipe_id == rid₀ + 0) = _ :=
        List.filter_eq_self.mpr (by
          intro c hc
          obtain ⟨q, _, rfl⟩ := List.mem_map.mp hc
          simp)
      rw [hkeep]
      have hdrop : (blocksR (rid₀ + 1)
          (n + (create_recipe_chunks row).length) rest).filter
          (fun c => c.recipe_id == rid₀ + 0) = [] :=
        List.filter_eq_nil_iff.mpr (by
          intro c hc
          have := blocksR_rid_ge rest (rid₀ + 1) _ c hc
          simp only [beq_iff_eq]
          omega)
      rw [hdrop, List.append_nil, List.map_map]
      have : ((fun c : ChunkMeta => (c.chunk_id, c.text)) ∘ (fun q =>
          ({ global_chunk_id := n + q.1
             recipe_id := rid₀
             chunk_id := q.1
             text := q.2 } : ChunkMeta))) = id := by
        funext q
        rfl
      rw [this, List.map_id]
    | succ j =>
      rw [List.get?_cons_succ] at hget
      have hdrop : ((create_recipe_chunks r).enum.map (fun q =>
          ({ global_chunk_id := n + q.1
             recipe_id := rid₀
             chunk_id := q.1
             text := q.2 } : ChunkMeta))).filter
          (fun c => c.recipe_id == rid₀ + (j + 1)) = [] :=
        List.filter_eq_nil_iff.mpr (by
          intro c hc
          obtain ⟨q, _, rfl⟩ := List.mem_map.mp hc
          simp only [beq_iff_eq]
          omega)
      rw [hdrop, List.nil_append]
      have harith : rid₀ + (j + 1) = (rid₀ + 1) + j := by omega
      rw [harith]
      exact ih (rid₀ + 1) _ j hget

/-- C8: for every corpus, the chunk metadata produced by `process`
satisfies: `global_chunk_id` values are exactly `0..M-1` in production
order (so each equals its row position in the embedded vector
sequence, whose texts are listed by `chunkTexts` in the same order);
each `global_chunk_id` identifies exactly one metadata entry (hence
exactly one `recipe_id`); and within each recipe the `chunk_id`s are
contiguous from 0, in chunker order, paired with that recipe's chunk
texts. -/
theorem processChunks_invariants (metadata : List RecipeMeta) :
    ((processChunks metadata).map (fun c => c.global_chunk_id) =
      List.range ((processChunks metadata).length)) ∧
    ((processChunks metadata).map (fun c => c.text) =
      chunkTexts metadata) ∧
    (∀ c1 ∈ processChunks metadata, ∀ c2 ∈ processChunks metadata,
      c1.global_chunk_id = c2.global_chunk_id → c1 = c2) ∧
    (∀ i : ℕ, ∀ row : RecipeMeta, metadata.get? i = some row →
      ((processChunks metadata).filter
          (fun c => c.recipe_id == i)).map
        (fun c => (c.chunk_id, c.text)) =
        (create_recipe_chunks row).enum) := by
  rw [processChunks_eq_blocksR]
  have hgid := blocksR_map_gid metadata 0 0
  rw [← List.range_eq_range'] at hgid
  refine ⟨hgid, ?_, ?_, ?_⟩
  · exact blocksR_map_text metadata 0 0
  · have hnodup : ((blocksR 0 0 metadata).map
        (fun c => c.global_chunk_id)).Nodup := by
      rw [hgid]
      exact List.nodup_range _
    exact fun c1 h1 c2 h2 heq =>
      List.inj_on_of_nodup_map hnodup h1 h2 heq
  · intro i row hget
    have := blocksR_filter metadata 0 0 i row hget
    simpa using this

/-- C8 witness: the invariants at a concrete two-recipe corpus (three
chunks total: title and one ingredient group for recipe 0, title only
for recipe 1). -/
theorem processChunks_invariants_witness :
    ((processChunks [w8R0, w8R1]).map (fun c => c.global_chunk_id) =
      List.range ((processChunks [w8R0, w8R1]).length)) ∧
    ((processChunks [w8R0, w8R1]).map (fun c => c.text) =
      chunkTexts [w8R0, w8R1]) ∧
    (∀ c1 ∈ processChunks [w8R0, w8R1],
      ∀ c2 ∈ processChunks [w8R0, w8R1],
      c1.global_chunk_id = c2.global_chunk_id → c1 = c2) ∧
    (∀ i : ℕ, ∀ row : RecipeMeta, [w8R0, w8R1].get? i = some row →
      ((processChunks [w8R0, w8R1]).filter
          (fun c => c.recipe_id == i)).map
        (fun c => (c.chunk_id, c.text)) =
        (create_recipe_chunks row).enum) :=
  processChunks_invariants [w8R0, w8R1]

end EcoRecipes
